import Mathlib

/-!
Shallow embedding of `src/visitor.rs` (callgraph.rs): the call-graph
`RecordVisitor`, its AST traversal, and the post-processing expansion of
dynamically dispatched calls, together with theorems about them.

Modelling conventions:
* `NodeId` is `Nat`; a `DefId` is a pair of crate number and node id.
* `HashSet<(NodeId, NodeId)>` is a duplicate-free `List (Nat × Nat)` and
  `HashSet::insert` appends when the element is absent.
* `HashMap<NodeId, V>` is an association list `List (Nat × V)` with
  replace-on-insert semantics.
* The external save-analysis facade's answers are baked into the AST
  nodes: each node carries the result of `save::generated_code(span)` as
  a boolean `g` and the `save::Data` the facade would return for it.
* The `println!` warning of `ensure_cur_fn!` is modelled by a `warnings`
  log of the spans printed.
* The panicking indexed lookup `self.method_impls[to]` in `post_process`
  is modelled by an `Option`-valued computation: `none` is the panic.
-/

/-- A `syntax::ast::DefId`: crate number plus node id within the crate. -/
structure DefId where
  krate : Nat
  node : Nat
deriving DecidableEq, Repr

/-- Model of `ast::LOCAL_CRATE`: the crate number of the crate being analyzed. -/
def LOCAL_CRATE : Nat := 0

/-- True if the def id refers to an item in the current crate
(`fn is_local`, visitor.rs:71-73). -/
def is_local (id : DefId) : Bool := id.krate == LOCAL_CRATE

/-- Model of `save::FunctionCallData`, restricted to the fields the visitor reads:
the span and the id of the callee. -/
structure FunctionCallData where
  span : Nat
  ref_id : DefId
deriving DecidableEq, Repr

/-- Model of `save::MethodCallData`, restricted to the fields the visitor reads:
the span, the statically known callee (if any), and the method
declaration called through (if any). -/
structure MethodCallData where
  span : Nat
  ref_id : Option DefId
  decl_id : Option DefId
deriving DecidableEq, Repr

/-- Model of `save::Data` as the visitor matches on it: a function call, a method
call, or any other variant. -/
inductive SaveData where
  | functionCall (fcd : FunctionCallData)
  | methodCall (mrd : MethodCallData)
  | other
deriving DecidableEq, Repr

/-- Model of `save::FunctionData` as read in `visit_item` and `visit_trait_item`:
node id and fully qualified name. -/
structure FnData where
  id : Nat
  qualname : String
deriving DecidableEq, Repr

/-- Method data as read in `visit_impl_item`: node id, qualified name,
and the overridden declaration, if any. -/
structure MethodData where
  id : Nat
  qualname : String
  declaration : Option DefId
deriving DecidableEq, Repr

/-- Lookup in an association list modelling a std `HashMap`. -/
def mapFind? {V : Type} (m : List (Nat × V)) (k : Nat) : Option V :=
  match m with
  | [] => none
  | (k', v) :: rest => if k = k' then some v else mapFind? rest k

/-- Model of `HashMap::insert`: replace the binding for `k`, or add one. -/
def mapInsert {V : Type} (m : List (Nat × V)) (k : Nat) (v : V) : List (Nat × V) :=
  match m with
  | [] => [(k, v)]
  | (k', v') :: rest => if k = k' then (k, v) :: rest else (k', v') :: mapInsert rest k v

/-- Model of `HashMap::contains_key`. -/
def mapContains {V : Type} (m : List (Nat × V)) (k : Nat) : Bool :=
  (mapFind? m k).isSome

/-- Apply `f` to the value bound at `k` (a `HashMap::get_mut` followed by
a mutation of the value), when the key is present. -/
def mapModify {V : Type} (m : List (Nat × V)) (k : Nat) (f : V → V) : List (Nat × V) :=
  match m with
  | [] => []
  | (k', v) :: rest => if k = k' then (k', f v) :: rest else (k', v) :: mapModify rest k f

/-- Model of `HashSet::insert` on an edge set, modelled as a duplicate-free list. -/
def setInsert (s : List (Nat × Nat)) (e : Nat × Nat) : List (Nat × Nat) :=
  if e ∈ s then s else s ++ [e]

/-- The state of the `RecordVisitor` (visitor.rs:25-43), plus a log of
the warnings printed by `ensure_cur_fn!`. -/
structure RecordVisitor where
  static_calls : List (Nat × Nat)
  dynamic_calls : List (Nat × Nat)
  functions : List (Nat × String)
  method_decls : List (Nat × String)
  method_impls : List (Nat × List Nat)
  cur_fn : Option Nat
  warnings : List Nat
deriving DecidableEq, Repr

/-- Model of `RecordVisitor::new` (visitor.rs:77-89): everything empty, no
current function. -/
def RecordVisitor.new : RecordVisitor :=
  { static_calls := []
    dynamic_calls := []
    functions := []
    method_decls := []
    method_impls := []
    cur_fn := none
    warnings := [] }

/-- Model of `RecordVisitor::record_method_call` (visitor.rs:142-157), including
the `ensure_cur_fn!` warn-and-return when no current function is set. -/
def record_method_call (s : RecordVisitor) (mrd : MethodCallData) : RecordVisitor :=
  match s.cur_fn with
  | none => { s with warnings := s.warnings ++ [mrd.span] }
  | some cf =>
    match mrd.ref_id with
    | some r =>
      if is_local r then
        { s with static_calls := setInsert s.static_calls (cf, r.node) }
      else s
    | none =>
      match mrd.decl_id with
      | some d =>
        if is_local d then
          { s with dynamic_calls := setInsert s.dynamic_calls (cf, d.node) }
        else s
      | none => s

/-- Model of `RecordVisitor::append_method_impl` (visitor.rs:160-166): ensure the
declaration has an (initially empty) entry, then push the definition. -/
def append_method_impl (s : RecordVisitor) (decl df : Nat) : RecordVisitor :=
  let m := if mapContains s.method_impls decl then s.method_impls
           else mapInsert s.method_impls decl []
  { s with method_impls := mapModify m decl (fun l => l ++ [df]) }

/-- One loop body of `post_process`: insert `(from, to')` for every
implementation `to'` of the edge's target declaration; the indexed
lookup `self.method_impls[to]` panics (`none`) when the key is absent. -/
def expandEdge (impls : List (Nat × List Nat)) (acc : Option (List (Nat × Nat)))
    (e : Nat × Nat) : Option (List (Nat × Nat)) :=
  match acc with
  | none => none
  | some s =>
    match mapFind? impls e.2 with
    | none => none
    | some ts => some (ts.foldl (fun s t => setInsert s (e.1, t)) s)

/-- Model of `RecordVisitor::post_process` (visitor.rs:129-139): rebuild
`dynamic_calls` by expanding every `(from, to)` through
`method_impls[to]`; `none` models the panic on a missing key. -/
def post_process (s : RecordVisitor) : Option RecordVisitor :=
  match s.dynamic_calls.foldl (expandEdge s.method_impls) (some []) with
  | none => none
  | some pc => some { s with dynamic_calls := pc }

/-- The AST as the visitor distinguishes it (visitor.rs:181-290), with
the facade's answers attached.  One constructor per case the source
handles specially; `other` covers every node kind that is walked
transparently by the default visitor methods. -/
inductive Ast where
  | path (g : Bool) (data : SaveData) (children : List Ast)
  | methodCallExpr (g : Bool) (data : Option SaveData) (children : List Ast)
  | fnItem (g : Bool) (fd : FnData) (children : List Ast)
  | traitDeclItem (g : Bool) (fd : FnData) (children : List Ast)
  | traitDefaultItem (g : Bool) (fd : FnData) (children : List Ast)
  | implMethodItem (g : Bool) (fd : MethodData) (children : List Ast)
  | other (g : Bool) (children : List Ast)
deriving Repr

mutual

/-- The visitor dispatch: `visit_path`, `visit_expr`, `visit_item`,
`visit_trait_item`, `visit_impl_item` from visitor.rs.  Each case first
performs the `skip_generated_code!` check; the body-entering cases use
the `push_walk_pop!` save/set/walk/restore discipline. -/
def visit (s : RecordVisitor) : Ast → RecordVisitor
  | .path g data children =>
    if g then s else
    match data with
    | .functionCall fcd =>
      if is_local fcd.ref_id then
        match s.cur_fn with
        | none => { s with warnings := s.warnings ++ [fcd.span] }
        | some cf =>
          visitList { s with static_calls := setInsert s.static_calls (cf, fcd.ref_id.node) }
            children
      else visitList s children
    | .methodCall mrd => visitList (record_method_call s mrd) children
    | .other => visitList s children
  | .methodCallExpr g data children =>
    if g then s else
    let t := visitList s children
    match data with
    | some (.methodCall mrd) => record_method_call t mrd
    | _ => t
  | .fnItem g fd children =>
    if g then s else
    let t := { s with functions := mapInsert s.functions fd.id fd.qualname }
    let u := visitList { t with cur_fn := some fd.id } children
    { u with cur_fn := t.cur_fn }
  | .traitDeclItem g fd children =>
    if g then s else
    visitList
      { s with method_decls := mapInsert s.method_decls fd.id fd.qualname
               method_impls := mapInsert s.method_impls fd.id [] } children
  | .traitDefaultItem g fd children =>
    if g then s else
    let t := append_method_impl
      { s with method_decls := mapInsert s.method_decls fd.id fd.qualname
               functions := mapInsert s.functions fd.id fd.qualname } fd.id fd.id
    let u := visitList { t with cur_fn := some fd.id } children
    { u with cur_fn := t.cur_fn }
  | .implMethodItem g fd children =>
    if g then s else
    let t := { s with functions := mapInsert s.functions fd.id fd.qualname }
    let t2 := match fd.declaration with
      | some decl => if is_local decl then append_method_impl t decl.node fd.id else t
      | none => t
    let u := visitList { t2 with cur_fn := some fd.id } children
    { u with cur_fn := t2.cur_fn }
  | .other g children =>
    if g then s else visitList s children

/-- Model of `visit::walk_*`: visit each child in order. -/
def visitList (s : RecordVisitor) : List Ast → RecordVisitor
  | [] => s
  | a :: rest => visitList (visit s a) rest

end

/-- Run the whole traversal from the fresh visitor over a crate given as
its list of top-level AST nodes. -/
def run (prog : List Ast) : RecordVisitor :=
  visitList RecordVisitor.new prog

/-- The call-target def ids mentioned by one facade answer that feed the
static edge set: the function-call callee and the statically known
method-call callee. -/
def SaveData.staticRefs : SaveData → List DefId
  | .functionCall fcd => [fcd.ref_id]
  | .methodCall mrd => mrd.ref_id.toList
  | .other => []

/-- The method-declaration def ids mentioned by one facade answer that
feed the dynamic edge set. -/
def SaveData.dynRefs : SaveData → List DefId
  | .functionCall _ => []
  | .methodCall mrd => mrd.decl_id.toList
  | .other => []

mutual

/-- All facade answers attached to call references in a subtree,
projected through `f`. -/
def Ast.refs (f : SaveData → List DefId) : Ast → List DefId
  | .path _ d ch => f d ++ refsList f ch
  | .methodCallExpr _ d ch => (match d with | some sd => f sd | none => []) ++ refsList f ch
  | .fnItem _ _ ch => refsList f ch
  | .traitDeclItem _ _ ch => refsList f ch
  | .traitDefaultItem _ _ ch => refsList f ch
  | .implMethodItem _ _ ch => refsList f ch
  | .other _ ch => refsList f ch

/-- Collects `Ast.refs` over a list of subtrees. -/
def refsList (f : SaveData → List DefId) : List Ast → List DefId
  | [] => []
  | a :: rest => Ast.refs f a ++ refsList f rest

end

/-! ### Concrete crates used as witnesses and counterexamples -/

/-- A crate with an abstract trait method (id 1) implemented by a
concrete method (id 2), and a function (id 0) whose body calls the
declaration dynamically and function 2 statically. -/
def exampleCrate : List Ast :=
  [ .traitDeclItem false ⟨1, "T::m"⟩ [],
    .implMethodItem false ⟨2, "X::m", some ⟨0, 1⟩⟩ [],
    .fnItem false ⟨0, "caller"⟩
      [ .methodCallExpr false (some (.methodCall ⟨5, none, some ⟨0, 1⟩⟩)) [],
        .path false (.functionCall ⟨6, ⟨0, 2⟩⟩) [] ] ]

/-- The model for `exampleCrate` after one round of post-processing:
the dynamic edge to declaration 1 expanded to its implementer 2. -/
def exampleProcessed : RecordVisitor :=
  { run exampleCrate with dynamic_calls := [(0, 2)] }

/-- A crate with a default-bodied trait method (id 1) that is never
overridden, called dynamically from function 0. -/
def defaultCrate : List Ast :=
  [ .traitDefaultItem false ⟨1, "T::d"⟩ [],
    .fnItem false ⟨0, "caller"⟩
      [ .methodCallExpr false (some (.methodCall ⟨5, none, some ⟨0, 1⟩⟩)) [] ] ]

/-- The model for `defaultCrate` after post-processing: the dynamic edge
to declaration 1 expanded through the reflexive link back to (0, 1). -/
def defaultProcessed : RecordVisitor :=
  { run defaultCrate with dynamic_calls := [(0, 1)] }

/-- A crate with an abstract trait method (id 1) that has no
implementers, called dynamically from function 0. -/
def abstractCrate : List Ast :=
  [ .traitDeclItem false ⟨1, "T::m"⟩ [],
    .fnItem false ⟨0, "caller"⟩
      [ .methodCallExpr false (some (.methodCall ⟨5, none, some ⟨0, 1⟩⟩)) [] ] ]

/-- A crate whose function 0 (ordinary code) calls the local function 9
whose definition lies in generated code: the definition is skipped by
`skip_generated_code!`, so id 9 is never registered in `functions`, yet
the static edge (0, 9) is recorded. -/
def generatedCalleeCrate : List Ast :=
  [ .fnItem true ⟨9, "gen"⟩ [],
    .fnItem false ⟨0, "caller"⟩ [ .path false (.functionCall ⟨7, ⟨0, 9⟩⟩) [] ] ]

/-- The model for `generatedCalleeCrate` after post-processing. -/
def generatedProcessed : RecordVisitor :=
  { run generatedCalleeCrate with dynamic_calls := [] }

/-- A crate with nested function definitions: function A (id 0) contains
a locally defined function B (id 1) that calls function 2; after B's
body, A's own body calls function 3. -/
def nestedCrate : List Ast :=
  [ .fnItem false ⟨0, "A"⟩
      [ .fnItem false ⟨1, "B"⟩ [ .path false (.functionCall ⟨10, ⟨0, 2⟩⟩) [] ],
        .path false (.functionCall ⟨11, ⟨0, 3⟩⟩) [] ] ]

/-- Provenance of newly inserted edges: every edge of `new` that is not
already in `old` has a target node stemming from a def id in `refs`
that satisfied the locality predicate. -/
def edgeProv (refs : List DefId) (old new : List (Nat × Nat)) : Prop :=
  ∀ e, e ∈ new → e ∈ old ∨ ∃ d, d ∈ refs ∧ is_local d = true ∧ e.2 = d.node

/-! ### Lemmas about the association-list and edge-set operations -/

lemma mem_setInsert {s : List (Nat × Nat)} {e p : Nat × Nat} :
    p ∈ setInsert s e ↔ p ∈ s ∨ p = e := by
  unfold setInsert
  by_cases h : e ∈ s
  · rw [if_pos h]
    constructor
    · exact Or.inl
    · rintro (hp | rfl)
      · exact hp
      · exact h
  · rw [if_neg h]
    simp [List.mem_append]

lemma mem_foldl_setInsert {f : Nat} (ts : List Nat) (s₀ : List (Nat × Nat)) (p : Nat × Nat) :
    p ∈ ts.foldl (fun s t => setInsert s (f, t)) s₀ ↔ p ∈ s₀ ∨ (p.1 = f ∧ p.2 ∈ ts) := by
  induction ts generalizing s₀ with
  | nil => simp
  | cons t ts ih =>
    simp only [List.foldl_cons, ih, mem_setInsert, List.mem_cons, Prod.ext_iff]
    tauto

lemma mapFind?_mapInsert_self {V : Type} (m : List (Nat × V)) (k : Nat) (v : V) :
    mapFind? (mapInsert m k v) k = some v := by
  induction m with
  | nil => simp [mapInsert, mapFind?]
  | cons kv m ih =>
    obtain ⟨k', v'⟩ := kv
    by_cases h : k = k'
    · simp [mapInsert, mapFind?, h]
    · simp [mapInsert, mapFind?, h, ih]

lemma mapFind?_mapModify_self {V : Type} (m : List (Nat × V)) (k : Nat) (f : V → V) :
    mapFind? (mapModify m k f) k = (mapFind? m k).map f := by
  induction m with
  | nil => simp [mapModify, mapFind?]
  | cons kv m ih =>
    obtain ⟨k', v'⟩ := kv
    by_cases h : k = k'
    · simp [mapModify, mapFind?, h]
    · simp [mapModify, mapFind?, h, ih]

lemma append_method_impl_mem (s : RecordVisitor) (d v : Nat) :
    ∃ l, mapFind? (append_method_impl s d v).method_impls d = some l ∧ v ∈ l := by
  unfold append_method_impl
  cases hc : mapContains s.method_impls d with
  | true =>
    obtain ⟨l0, hl0⟩ := Option.isSome_iff_exists.mp hc
    refine ⟨l0 ++ [v], ?_, by simp⟩
    simp only [hc, if_true]
    rw [mapFind?_mapModify_self, hl0]
    rfl
  | false =>
    refine ⟨[] ++ [v], ?_, by simp⟩
    simp only [hc, Bool.false_eq_true, if_false]
    rw [mapFind?_mapModify_self, mapFind?_mapInsert_self]
    rfl

/-! ### Lemmas about the expansion loop of post_process -/

lemma foldl_expand_none (impls : List (Nat × List Nat)) (l : List (Nat × Nat)) :
    l.foldl (expandEdge impls) none = none := by
  induction l with
  | nil => rfl
  | cons e l ih => simpa [expandEdge] using ih

lemma foldl_expand_some_mem (impls : List (Nat × List Nat)) (l : List (Nat × Nat))
    (s₀ s : List (Nat × Nat)) (h : l.foldl (expandEdge impls) (some s₀) = some s)
    (p : Nat × Nat) :
    p ∈ s ↔ p ∈ s₀ ∨ ∃ d ts, (p.1, d) ∈ l ∧ mapFind? impls d = some ts ∧ p.2 ∈ ts := by
  induction l generalizing s₀ with
  | nil =>
    simp only [List.foldl_nil, Option.some.injEq] at h
    subst h
    simp
  | cons e l ih =>
    obtain ⟨e1, e2⟩ := e
    rw [List.foldl_cons] at h
    cases hf : mapFind? impls e2 with
    | none =>
      rw [show expandEdge impls (some s₀) (e1, e2) = none from by simp [expandEdge, hf]] at h
      rw [foldl_expand_none] at h
      exact absurd h (by simp)
    | some ts =>
      rw [show expandEdge impls (some s₀) (e1, e2)
            = some (ts.foldl (fun s t => setInsert s (e1, t)) s₀) from
          by simp [expandEdge, hf]] at h
      rw [ih _ h, mem_foldl_setInsert]
      constructor
      · rintro ((hp | ⟨h1, h2⟩) | ⟨d, ts', hmem, hfind, hts⟩)
        · exact Or.inl hp
        · exact Or.inr ⟨e2, ts, by simp [h1], hf, h2⟩
        · exact Or.inr ⟨d, ts', List.mem_cons_of_mem _ hmem, hfind, hts⟩
      · rintro (hp | ⟨d, ts', hmem, hfind, hts⟩)
        · exact Or.inl (Or.inl hp)
        · rcases List.mem_cons.mp hmem with heq | hmem'
          · obtain ⟨hp1, hd⟩ := Prod.mk.injEq .. ▸ heq
            subst hd
            rw [hf] at hfind
            obtain rfl := Option.some.injEq .. ▸ hfind
            exact Or.inl (Or.inr ⟨hp1, hts⟩)
          · exact Or.inr ⟨d, ts', hmem', hfind, hts⟩

lemma foldl_expand_total (impls : List (Nat × List Nat)) (l : List (Nat × Nat))
    (h : ∀ e ∈ l, (mapFind? impls e.2).isSome = true) (s₀ : List (Nat × Nat)) :
    ∃ s, l.foldl (expandEdge impls) (some s₀) = some s := by
  induction l generalizing s₀ with
  | nil => exact ⟨s₀, rfl⟩
  | cons e l ih =>
    have he := h e (by simp)
    cases hf : mapFind? impls e.2 with
    | none => rw [hf] at he; exact absurd he (by simp)
    | some ts =>
      rw [List.foldl_cons,
        show expandEdge impls (some s₀) e
            = some (ts.foldl (fun s t => setInsert s (e.1, t)) s₀) from
          by simp [expandEdge, hf]]
      exact ih (fun e' he' => h e' (List.mem_cons_of_mem _ he')) _

lemma foldl_expand_empty (impls : List (Nat × List Nat)) (l : List (Nat × Nat))
    (h : ∀ e ∈ l, mapFind? impls e.2 = some []) (s₀ : List (Nat × Nat)) :
    l.foldl (expandEdge impls) (some s₀) = some s₀ := by
  induction l with
  | nil => rfl
  | cons e l ih =>
    rw [List.foldl_cons,
      show expandEdge impls (some s₀) e = some s₀ from
        by simp [expandEdge, h e (by simp)]]
    exact ih (fun e' he' => h e' (List.mem_cons_of_mem _ he'))

lemma post_process_dynamic_mem (m m' : RecordVisitor) (h : post_process m = some m')
    (p : Nat × Nat) :
    p ∈ m'.dynamic_calls ↔
      ∃ d ts, (p.1, d) ∈ m.dynamic_calls ∧ mapFind? m.method_impls d = some ts ∧ p.2 ∈ ts := by
  unfold post_process at h
  cases hf : m.dynamic_calls.foldl (expandEdge m.method_impls) (some []) with
  | none => rw [hf] at h; exact absurd h (by simp)
  | some pc =>
    rw [hf] at h
    injection h with h
    subst h
    simpa using foldl_expand_some_mem _ _ _ _ hf p

lemma post_process_frame (m m' : RecordVisitor) (h : post_process m = some m') :
    m'.functions = m.functions ∧ m'.method_decls = m.method_decls ∧
    m'.method_impls = m.method_impls ∧ m'.static_calls = m.static_calls ∧
    m'.cur_fn = m.cur_fn ∧ m'.warnings = m.warnings := by
  unfold post_process at h
  cases hf : m.dynamic_calls.foldl (expandEdge m.method_impls) (some []) with
  | none => rw [hf] at h; exact absurd h (by simp)
  | some pc =>
    rw [hf] at h
    injection h with h
    subst h
    exact ⟨rfl, rfl, rfl, rfl, rfl, rfl⟩

/-! ### Provenance of recorded edges -/

lemma edgeProv_refl (refs : List DefId) (s : List (Nat × Nat)) : edgeProv refs s s :=
  fun _ he => Or.inl he

lemma edgeProv_mono {r r' : List DefId} {old new : List (Nat × Nat)}
    (h : edgeProv r old new) (hsub : ∀ d ∈ r, d ∈ r') : edgeProv r' old new := by
  intro e he
  rcases h e he with hs | ⟨d, hd, hl, hn⟩
  · exact Or.inl hs
  · exact Or.inr ⟨d, hsub d hd, hl, hn⟩

lemma edgeProv_comp {r1 r2 : List DefId} {s t u : List (Nat × Nat)}
    (h1 : edgeProv r1 s t) (h2 : edgeProv r2 t u) : edgeProv (r1 ++ r2) s u := by
  intro e he
  rcases h2 e he with ht | ⟨d, hd, hl, hn⟩
  · rcases h1 e ht with hs | ⟨d, hd, hl, hn⟩
    · exact Or.inl hs
    · exact Or.inr ⟨d, List.mem_append_left _ hd, hl, hn⟩
  · exact Or.inr ⟨d, List.mem_append_right _ hd, hl, hn⟩

lemma edgeProv_setInsert {d : DefId} {c : Nat} (hl : is_local d = true)
    (s : List (Nat × Nat)) : edgeProv [d] s (setInsert s (c, d.node)) := by
  intro e he
  rcases mem_setInsert.mp he with hs | rfl
  · exact Or.inl hs
  · exact Or.inr ⟨d, by simp, hl, rfl⟩

lemma record_method_call_prov (s : RecordVisitor) (mrd : MethodCallData) :
    edgeProv mrd.ref_id.toList s.static_calls (record_method_call s mrd).static_calls ∧
    edgeProv mrd.decl_id.toList s.dynamic_calls (record_method_call s mrd).dynamic_calls := by
  obtain ⟨sc, dc, fns, mds, mis, cf, ws⟩ := s
  obtain ⟨sp, rid, did⟩ := mrd
  cases cf with
  | none => exact ⟨edgeProv_refl _ _, edgeProv_refl _ _⟩
  | some c =>
    cases rid with
    | some r =>
      cases hb : is_local r with
      | true =>
        simp only [record_method_call, hb, if_true]
        exact ⟨edgeProv_setInsert hb sc, edgeProv_refl _ _⟩
      | false =>
        simp only [record_method_call, hb, Bool.false_eq_true, if_false]
        exact ⟨edgeProv_refl _ _, edgeProv_refl _ _⟩
    | none =>
      cases did with
      | some d =>
        cases hb : is_local d with
        | true =>
          simp only [record_method_call, hb, if_true]
          exact ⟨edgeProv_refl _ _, edgeProv_setInsert hb dc⟩
        | false =>
          simp only [record_method_call, hb, Bool.false_eq_true, if_false]
          exact ⟨edgeProv_refl _ _, edgeProv_refl _ _⟩
      | none => exact ⟨edgeProv_refl _ _, edgeProv_refl _ _⟩

lemma visit_edge_prov : ∀ n : Nat,
    (∀ a : Ast, sizeOf a < n → ∀ s : RecordVisitor,
      edgeProv (a.refs SaveData.staticRefs) s.static_calls (visit s a).static_calls ∧
      edgeProv (a.refs SaveData.dynRefs) s.dynamic_calls (visit s a).dynamic_calls) ∧
    (∀ l : List Ast, sizeOf l < n → ∀ s : RecordVisitor,
      edgeProv (refsList SaveData.staticRefs l) s.static_calls (visitList s l).static_calls ∧
      edgeProv (refsList SaveData.dynRefs l) s.dynamic_calls (visitList s l).dynamic_calls) := by
  intro n
  induction n with
  | zero =>
    exact ⟨fun a ha => absurd ha (Nat.not_lt_zero _),
           fun l hl => absurd hl (Nat.not_lt_zero _)⟩
  | succ n ih =>
    obtain ⟨ihA, ihL⟩ := ih
    constructor
    · intro a ha s
      cases a with
      | path g data ch =>
        have hch : sizeOf ch < n := by simp [Ast.path.sizeOf_spec] at ha; omega
        cases g with
        | true => exact ⟨edgeProv_refl _ _, edgeProv_refl _ _⟩
        | false =>
          cases data with
          | functionCall fcd =>
            cases hb : is_local fcd.ref_id with
            | false =>
              simp only [Ast.refs, SaveData.staticRefs, SaveData.dynRefs, List.nil_append]
              simp [visit, hb]
              exact ⟨edgeProv_mono (ihL ch hch s).1 (fun d hd => List.mem_cons_of_mem _ hd),
                     (ihL ch hch s).2⟩
            | true =>
              simp only [Ast.refs, SaveData.staticRefs, SaveData.dynRefs, List.nil_append]
              simp [visit, hb]
              cases hcf : s.cur_fn with
              | none =>
                simp only [hcf]
                exact ⟨edgeProv_refl _ _, edgeProv_refl _ _⟩
              | some c =>
                simp only [hcf]
                exact ⟨edgeProv_comp (edgeProv_setInsert hb s.static_calls) (ihL ch hch _).1,
                       (ihL ch hch _).2⟩
          | methodCall mrd =>
            simp only [Ast.refs, SaveData.staticRefs, SaveData.dynRefs]
            simp [visit]
            exact ⟨edgeProv_comp (record_method_call_prov s mrd).1 (ihL ch hch _).1,
                   edgeProv_comp (record_method_call_prov s mrd).2 (ihL ch hch _).2⟩
          | other =>
            simp only [Ast.refs, SaveData.staticRefs, SaveData.dynRefs, List.nil_append]
            simp [visit]
            exact ⟨(ihL ch hch s).1, (ihL ch hch s).2⟩
      | methodCallExpr g data ch =>
        have hch : sizeOf ch < n := by simp [Ast.methodCallExpr.sizeOf_spec] at ha; omega
        cases g with
        | true => exact ⟨edgeProv_refl _ _, edgeProv_refl _ _⟩
        | false =>
          cases data with
          | none => exact ⟨(ihL ch hch s).1, (ihL ch hch s).2⟩
          | some sd =>
            cases sd with
            | functionCall fcd =>
              simp only [Ast.refs, SaveData.staticRefs, SaveData.dynRefs, List.nil_append]
              simp [visit]
              exact ⟨edgeProv_mono (ihL ch hch s).1 (fun d hd => List.mem_cons_of_mem _ hd),
                     (ihL ch hch s).2⟩
            | methodCall mrd =>
              simp only [Ast.refs, SaveData.staticRefs, SaveData.dynRefs]
              simp [visit]
              refine ⟨edgeProv_mono
                  (edgeProv_comp (ihL ch hch s).1 (record_method_call_prov _ mrd).1) ?_,
                edgeProv_mono
                  (edgeProv_comp (ihL ch hch s).2 (record_method_call_prov _ mrd).2) ?_⟩ <;>
              · intro d hd
                rw [List.mem_append] at hd ⊢
                tauto
            | other =>
              simp only [Ast.refs, SaveData.staticRefs, SaveData.dynRefs, List.nil_append]
              simp [visit]
              exact ⟨(ihL ch hch s).1, (ihL ch hch s).2⟩
      | fnItem g fd ch =>
        have hch : sizeOf ch < n := by simp [Ast.fnItem.sizeOf_spec] at ha; omega
        cases g with
        | true => exact ⟨edgeProv_refl _ _, edgeProv_refl _ _⟩
        | false => exact ⟨(ihL ch hch _).1, (ihL ch hch _).2⟩
      | traitDeclItem g fd ch =>
        have hch : sizeOf ch < n := by simp [Ast.traitDeclItem.sizeOf_spec] at ha; omega
        cases g with
        | true => exact ⟨edgeProv_refl _ _, edgeProv_refl _ _⟩
        | false => exact ⟨(ihL ch hch _).1, (ihL ch hch _).2⟩
      | traitDefaultItem g fd ch =>
        have hch : sizeOf ch < n := by simp [Ast.traitDefaultItem.sizeOf_spec] at ha; omega
        cases g with
        | true => exact ⟨edgeProv_refl _ _, edgeProv_refl _ _⟩
        | false => exact ⟨(ihL ch hch _).1, (ihL ch hch _).2⟩
      | implMethodItem g fd ch =>
        have hch : sizeOf ch < n := by simp [Ast.implMethodItem.sizeOf_spec] at ha; omega
        cases g with
        | true => exact ⟨edgeProv_refl _ _, edgeProv_refl _ _⟩
        | false =>
          obtain ⟨fid, fqn, fdecl⟩ := fd
          cases fdecl with
          | none => exact ⟨(ihL ch hch _).1, (ihL ch hch _).2⟩
          | some dd =>
            cases hb : is_local dd with
            | true =>
              simp [visit, hb]
              exact ⟨(ihL ch hch _).1, (ihL ch hch _).2⟩
            | false =>
              simp [visit, hb]
              exact ⟨(ihL ch hch _).1, (ihL ch hch _).2⟩
      | other g ch =>
        have hch : sizeOf ch < n := by simp [Ast.other.sizeOf_spec] at ha; omega
        cases g with
        | true => exact ⟨edgeProv_refl _ _, edgeProv_refl _ _⟩
        | false => exact ⟨(ihL ch hch s).1, (ihL ch hch s).2⟩
    · intro l hl s
      cases l with
      | nil => exact ⟨edgeProv_refl _ _, edgeProv_refl _ _⟩
      | cons a rest =>
        have ha : sizeOf a < n := by simp at hl; omega
        have hrest : sizeOf rest < n := by simp at hl; omega
        exact ⟨edgeProv_comp (ihA a ha s).1 ((ihL rest hrest _).1),
               edgeProv_comp (ihA a ha s).2 ((ihL rest hrest _).2)⟩

/-! ### Claim theorems -/

/-- C1: whenever `post_process` completes on a model, the resulting
dynamic edge set is exactly the set of pairs (caller, implId) such that
(caller, declarationId) was in the pre-call dynamic edge set and implId
is a member of the implementer list stored under declarationId in
`method_impls`. -/
theorem post_process_expands_dynamic_calls (m m' : RecordVisitor)
    (h : post_process m = some m') (p : Nat × Nat) :
    p ∈ m'.dynamic_calls ↔
      ∃ d ts, (p.1, d) ∈ m.dynamic_calls ∧ mapFind? m.method_impls d = some ts ∧ p.2 ∈ ts :=
  post_process_dynamic_mem m m' h p

/-- Witness for C1 at the concrete crate `exampleCrate`. -/
theorem post_process_expands_dynamic_calls_witness :
    (0, 2) ∈ exampleProcessed.dynamic_calls ↔
      ∃ d ts, ((0 : Nat), d) ∈ (run exampleCrate).dynamic_calls ∧
        mapFind? (run exampleCrate).method_impls d = some ts ∧ (2 : Nat) ∈ ts :=
  post_process_expands_dynamic_calls (run exampleCrate) exampleProcessed rfl ((0 : Nat), (2 : Nat))

/-- C2 counterexample: on the raw traversal output of `exampleCrate`,
the first run of `post_process` succeeds but the second run panics (the
expanded target 2 is not a key of `method_impls`), so running it twice
does not yield the same final edge set as running it once. -/
theorem post_process_twice_panics :
    ∃ m₁, post_process (run exampleCrate) = some m₁ ∧ post_process m₁ = none :=
  ⟨exampleProcessed, rfl, rfl⟩

/-- C2 amended: running `post_process` a second time yields the same
final edge set only under the reflexive-link condition: every edge of
the once-expanded dynamic edge set must have a target whose
implementation-link entry is exactly its own reflexive singleton. -/
theorem post_process_twice_of_reflexive_links (m m₁ : RecordVisitor)
    (h : post_process m = some m₁)
    (h2 : ∀ e ∈ m₁.dynamic_calls, mapFind? m₁.method_impls e.2 = some [e.2]) :
    ∃ m₂, post_process m₁ = some m₂ ∧
      (∀ p : Nat × Nat, p ∈ m₂.dynamic_calls ↔ p ∈ m₁.dynamic_calls) ∧
      m₂.static_calls = m₁.static_calls := by
  have htot : ∀ e ∈ m₁.dynamic_calls, (mapFind? m₁.method_impls e.2).isSome = true := by
    intro e he
    rw [h2 e he]
    rfl
  obtain ⟨s, hs⟩ := foldl_expand_total m₁.method_impls m₁.dynamic_calls htot []
  refine ⟨{ m₁ with dynamic_calls := s }, by unfold post_process; rw [hs], ?_, rfl⟩
  intro p
  have hmem := foldl_expand_some_mem _ _ _ _ hs p
  simp only [List.not_mem_nil, false_or] at hmem
  show p ∈ s ↔ p ∈ m₁.dynamic_calls
  rw [hmem]
  constructor
  · rintro ⟨d, ts, hd, hfind, hts⟩
    rw [h2 (p.1, d) hd] at hfind
    injection hfind with hfind
    subst hfind
    obtain rfl := List.mem_singleton.mp hts
    simpa using hd
  · intro hp
    exact ⟨p.2, [p.2], by simpa using hp, h2 p hp, by simp⟩

/-- Witness for the amended C2 at the concrete crate `defaultCrate`. -/
theorem post_process_twice_of_reflexive_links_witness :
    ∃ m₂, post_process defaultProcessed = some m₂ ∧
      (∀ p : Nat × Nat, p ∈ m₂.dynamic_calls ↔ p ∈ defaultProcessed.dynamic_calls) ∧
      m₂.static_calls = defaultProcessed.static_calls :=
  post_process_twice_of_reflexive_links (run defaultCrate) defaultProcessed rfl (by decide)

/-- C3 (code bug): after the complete traversal of
`generatedCalleeCrate` followed by `post_process`, the static edge
(0, 9) is exposed to the exporters although id 9 is not a key of
`functions` (its definition was generated code and was skipped), so the
edge-endpoint-closure invariant stated in visitor.rs:299 fails and
`dump`'s indexing `self.functions[to]` would panic. -/
theorem edge_endpoint_closure_fails :
    ∃ m', post_process (run generatedCalleeCrate) = some m' ∧
      (0, 9) ∈ m'.static_calls ∧ mapFind? m'.functions 9 = none ∧
      mapFind? m'.functions 0 = some "caller" :=
  ⟨generatedProcessed, rfl, by decide, rfl, rfl⟩

/-- C4: the three body-entering visitor operations (free-function item,
default-bodied trait method, concrete impl method) restore `cur_fn` to
its previous value after walking the body; and on the nested crate the
call made inside the nested function B is attributed to B while the
call made after B's body is attributed to the outer function A. -/
theorem push_walk_pop_restores_cur_fn :
    (∀ (s : RecordVisitor) (g : Bool) (fd : FnData) (ch : List Ast),
      (visit s (.fnItem g fd ch)).cur_fn = s.cur_fn) ∧
    (∀ (s : RecordVisitor) (g : Bool) (fd : FnData) (ch : List Ast),
      (visit s (.traitDefaultItem g fd ch)).cur_fn = s.cur_fn) ∧
    (∀ (s : RecordVisitor) (g : Bool) (fd : MethodData) (ch : List Ast),
      (visit s (.implMethodItem g fd ch)).cur_fn = s.cur_fn) ∧
    (run nestedCrate).static_calls = [(1, 2), (0, 3)] ∧
    (run nestedCrate).cur_fn = none := by
  refine ⟨?_, ?_, ?_, by decide, by decide⟩
  · intro s g fd ch
    cases g <;> rfl
  · intro s g fd ch
    cases g <;> rfl
  · intro s g fd ch
    obtain ⟨fid, fqn, fdecl⟩ := fd
    cases g
    · cases fdecl with
      | none => rfl
      | some d => cases hb : is_local d <;> simp [visit, hb, append_method_impl]
    · rfl

/-- C6: a call reference observed while `cur_fn` is `none` produces a
warning carrying the source location, no edge, and no other change:
both for `record_method_call` (any method-call data) and for a path
that resolves to a local function call. -/
theorem missing_context_warns_and_drops (s : RecordVisitor) (mrd : MethodCallData)
    (fcd : FunctionCallData) (ch : List Ast)
    (h : s.cur_fn = none) (hl : is_local fcd.ref_id = true) :
    record_method_call s mrd = { s with warnings := s.warnings ++ [mrd.span] } ∧
    visit s (.path false (.functionCall fcd) ch) = { s with warnings := s.warnings ++ [fcd.span] } := by
  constructor
  · unfold record_method_call
    rw [h]
  · simp [visit, hl, h]

/-- Witness for C6 on the fresh visitor. -/
theorem missing_context_warns_and_drops_witness :
    record_method_call RecordVisitor.new ⟨3, none, some ⟨0, 1⟩⟩
        = { RecordVisitor.new with warnings := RecordVisitor.new.warnings ++ [3] } ∧
    visit RecordVisitor.new (.path false (.functionCall ⟨4, ⟨0, 2⟩⟩) [])
        = { RecordVisitor.new with warnings := RecordVisitor.new.warnings ++ [4] } :=
  missing_context_warns_and_drops RecordVisitor.new ⟨3, none, some ⟨0, 1⟩⟩ ⟨4, ⟨0, 2⟩⟩ [] rfl rfl

/-- C7: visiting a default-bodied trait method registers its id in
`method_decls` and in `functions` under the same qualified name and as
a member of its own implementer list; and on `defaultCrate`, where the
declaration is never overridden and is called dynamically from function
0, the post-processed model has exactly the one dynamic edge (0, 1). -/
theorem trait_default_registers_and_expands :
    (∀ (s : RecordVisitor) (fd : FnData),
      mapFind? (visit s (.traitDefaultItem false fd [])).method_decls fd.id = some fd.qualname ∧
      mapFind? (visit s (.traitDefaultItem false fd [])).functions fd.id = some fd.qualname ∧
      ∃ l, mapFind? (visit s (.traitDefaultItem false fd [])).method_impls fd.id = some l ∧
        fd.id ∈ l) ∧
    ∃ m', post_process (run defaultCrate) = some m' ∧
      m'.dynamic_calls = [(0, 1)] ∧ m'.static_calls = [] := by
  refine ⟨?_, defaultProcessed, rfl, rfl, rfl⟩
  intro s fd
  refine ⟨?_, ?_, ?_⟩
  · show mapFind? (mapInsert s.method_decls fd.id fd.qualname) fd.id = some fd.qualname
    exact mapFind?_mapInsert_self ..
  · show mapFind? (mapInsert s.functions fd.id fd.qualname) fd.id = some fd.qualname
    exact mapFind?_mapInsert_self ..
  · exact append_method_impl_mem
      { s with method_decls := mapInsert s.method_decls fd.id fd.qualname
               functions := mapInsert s.functions fd.id fd.qualname } fd.id fd.id

/-- C8: visiting an abstract trait method with no body registers it in
`method_impls` with an empty implementer list, and `post_process` on a
model all of whose dynamic targets have empty implementer lists
produces zero expanded edges without panicking and without warning. -/
theorem empty_implementers_expand_to_nothing (s : RecordVisitor) (fd : FnData)
    (m : RecordVisitor)
    (h : ∀ e ∈ m.dynamic_calls, mapFind? m.method_impls e.2 = some []) :
    mapFind? (visit s (.traitDeclItem false fd [])).method_impls fd.id = some [] ∧
    mapFind? (visit s (.traitDeclItem false fd [])).method_decls fd.id = some fd.qualname ∧
    ∃ m', post_process m = some m' ∧ m'.dynamic_calls = [] ∧ m'.warnings = m.warnings := by
  refine ⟨?_, ?_, { m with dynamic_calls := [] }, ?_, rfl, rfl⟩
  · show mapFind? (mapInsert s.method_impls fd.id []) fd.id = some []
    exact mapFind?_mapInsert_self ..
  · show mapFind? (mapInsert s.method_decls fd.id fd.qualname) fd.id = some fd.qualname
    exact mapFind?_mapInsert_self ..
  · unfold post_process
    rw [foldl_expand_empty m.method_impls m.dynamic_calls h []]

/-- Witness for C8 at the concrete crate `abstractCrate`. -/
theorem empty_implementers_expand_to_nothing_witness :
    mapFind? (visit RecordVisitor.new (.traitDeclItem false ⟨1, "T::m"⟩ [])).method_impls 1
        = some [] ∧
    mapFind? (visit RecordVisitor.new (.traitDeclItem false ⟨1, "T::m"⟩ [])).method_decls 1
        = some "T::m" ∧
    ∃ m', post_process (run abstractCrate) = some m' ∧
      m'.dynamic_calls = [] ∧ m'.warnings = (run abstractCrate).warnings :=
  empty_implementers_expand_to_nothing RecordVisitor.new ⟨1, "T::m"⟩ (run abstractCrate)
    (by decide)

/-- C9: `post_process` changes only the dynamic edge set: the callable
map, the method-declaration map, the implementation-link table and the
static edge set are unchanged whenever it completes. -/
theorem post_process_only_changes_dynamic_calls (m m' : RecordVisitor)
    (h : post_process m = some m') :
    m'.functions = m.functions ∧ m'.method_decls = m.method_decls ∧
    m'.method_impls = m.method_impls ∧ m'.static_calls = m.static_calls :=
  ⟨(post_process_frame m m' h).1, (post_process_frame m m' h).2.1,
   (post_process_frame m m' h).2.2.1, (post_process_frame m m' h).2.2.2.1⟩

/-- Witness for C9 at the concrete crate `exampleCrate`. -/
theorem post_process_only_changes_dynamic_calls_witness :
    exampleProcessed.functions = (run exampleCrate).functions ∧
    exampleProcessed.method_decls = (run exampleCrate).method_decls ∧
    exampleProcessed.method_impls = (run exampleCrate).method_impls ∧
    exampleProcessed.static_calls = (run exampleCrate).static_calls :=
  post_process_only_changes_dynamic_calls (run exampleCrate) exampleProcessed rfl

/-- C10: under the precondition that every dynamic edge's target is a
key of `method_impls`, the panic branch of the indexed lookup in
`post_process` is unreachable and `post_process` is total. -/
theorem post_process_total_of_targets_linked (m : RecordVisitor)
    (h : ∀ e ∈ m.dynamic_calls, mapContains m.method_impls e.2 = true) :
    ∃ m', post_process m = some m' := by
  obtain ⟨s, hs⟩ := foldl_expand_total m.method_impls m.dynamic_calls h []
  exact ⟨{ m with dynamic_calls := s }, by unfold post_process; rw [hs]⟩

/-- Witness for C10 at the concrete crate `exampleCrate`. -/
theorem post_process_total_of_targets_linked_witness :
    ∃ m', post_process (run exampleCrate) = some m' :=
  post_process_total_of_targets_linked (run exampleCrate) (by decide)

/-- C5: every pair recorded in the static or dynamic edge sets by a
traversal has a target that came from a call-reference def id that
satisfied the locality predicate; references resolving to non-local
targets never produce an edge of either kind. -/
theorem edges_only_from_local_targets (prog : List Ast) :
    (∀ e ∈ (run prog).static_calls,
      ∃ d, d ∈ refsList SaveData.staticRefs prog ∧ is_local d = true ∧ e.2 = d.node) ∧
    (∀ e ∈ (run prog).dynamic_calls,
      ∃ d, d ∈ refsList SaveData.dynRefs prog ∧ is_local d = true ∧ e.2 = d.node) := by
  have h := (visit_edge_prov (sizeOf prog + 1)).2 prog (by omega) RecordVisitor.new
  constructor
  · intro e he
    rcases h.1 e he with h0 | hd
    · exact absurd h0 (List.not_mem_nil e)
    · exact hd
  · intro e he
    rcases h.2 e he with h0 | hd
    · exact absurd h0 (List.not_mem_nil e)
    · exact hd

/-- Witness for C5 at the concrete crate `exampleCrate`, on its static
edge (0, 2) and its dynamic edge (0, 1). -/
theorem edges_only_from_local_targets_witness :
    (∃ d, d ∈ refsList SaveData.staticRefs exampleCrate ∧ is_local d = true ∧
      ((0 : Nat), (2 : Nat)).2 = d.node) ∧
    ∃ d, d ∈ refsList SaveData.dynRefs exampleCrate ∧ is_local d = true ∧
      ((0 : Nat), (1 : Nat)).2 = d.node :=
  ⟨(edges_only_from_local_targets exampleCrate).1 (0, 2) (by decide),
   (edges_only_from_local_targets exampleCrate).2 (0, 1) (by decide)⟩
